import Mathlib

/-!
# shrty: base-62 code codec, rate limiter and request handlers

A shallow embedding of `backend/b62/b62.go` and of the admission logic of
`backend/main.go`.

Conventions of the embedding:

* a Go `string` is its byte sequence, `GoString := List Nat` (each byte below 256);
* an `int64` is an `Int`, and every `int64` operation that can overflow is wrapped
  by `wrap64` (two's complement);
* a Go `error` is `Option GoError`, `none` being `nil`;
* a `time.Time` is an `Int` count of nanoseconds, `time.Minute` is `Minute`;
* the map `ips` is a partial function from keys to entries.
-/

namespace Shrty

/-! ## Basic types -/

/-- Go strings are byte sequences. -/
abbrev GoString := List Nat

/-- Bytes of an ASCII string literal. -/
def ascii (s : String) : GoString := s.toList.map Char.toNat

/-- Go error values; `Option GoError` is the Go type `error`, `none` is `nil`. -/
abbrev GoError := String

/-- Two's-complement wrap of an integer into the `int64` range. -/
def wrap64 (x : Int) : Int := (x + 2 ^ 63) % 2 ^ 64 - 2 ^ 63

/-! ## `b62.go` -/

/-- The constant `chars` of `b62.go`. -/
def chars : GoString :=
  ascii "0123456789ABCDEFGHIJKLMNOPQRSTUVWXYZabcdefghijklmnopqrstuvwxyz"

/-- The loop `for num > 0 { ... }` of `Encode`; `fuel` bounds the number of iterations
(`Encode` supplies `num` itself, which the loop never exhausts). Go's `%` and `/` on
`int64` truncate towards zero. -/
def Encode.loop : Nat → Int → GoString → GoString
  | 0, _, result => result
  | fuel + 1, num, result =>
    if num > 0 then
      let rem := num.tmod 62
      Encode.loop fuel (num.tdiv 62) (chars.getD rem.toNat 0 :: result)
    else result

/-- The function `func Encode(num int64) string`; a negative `num` skips the loop and
gives the empty string. -/
def Encode (num : Int) : GoString :=
  if num = 0 then ascii "0" else Encode.loop num.toNat num []

/-- The loop `for i := 0; i < len(s); i++ { ... }` of `Decode`, on the bytes not yet read
and the accumulator `result`. -/
def Decode.loop : GoString → Int → Int × Option GoError
  | [], result => (result, none)
  | c :: rest, result =>
    let result := wrap64 (result * 62)
    if 48 ≤ c ∧ c ≤ 57 then
      Decode.loop rest (wrap64 (result + ((c - 48 : Nat) : Int)))
    else if 65 ≤ c ∧ c ≤ 90 then
      Decode.loop rest (wrap64 (result + (((c - 65 : Nat) : Int) + 10)))
    else if 97 ≤ c ∧ c ≤ 122 then
      Decode.loop rest (wrap64 (result + (((c - 97 : Nat) : Int) + 36)))
    else (0, none)

/-- The function `func Decode(s string) (int64, error)`. -/
def Decode (s : GoString) : Int × Option GoError := Decode.loop s 0

/-! ## Vocabulary for the codec properties -/

/-- Membership of a byte in the alphabet `0-9`, `A-Z`, `a-z`. -/
def isAlnum (c : Nat) : Prop :=
  (48 ≤ c ∧ c ≤ 57) ∨ (65 ≤ c ∧ c ≤ 90) ∨ (97 ≤ c ∧ c ≤ 122)

instance (c : Nat) : Decidable (isAlnum c) := by unfold isAlnum; infer_instance

/-- Digit value of an alphabet byte: `0-9` are 0..9, `A-Z` are 10..35, `a-z` are 36..61. -/
def digitVal (c : Nat) : Nat :=
  if c ≤ 57 then c - 48 else if c ≤ 90 then c - 65 + 10 else c - 97 + 36

/-- Mathematical base-62 value of a string, most significant digit first, unbounded. -/
def b62Value (s : GoString) : Nat := s.foldl (fun a c => a * 62 + digitVal c) 0

/-! ## `main.go`: rate limiter -/

/-- The type `IPRateLimiter` with its fields `Count` and `Expires`. Instants are nanosecond
counts. `Count` only ever grows by the `v.Count++` guarded by `v.Count < 5`, so that
increment cannot overflow. -/
structure IPRateLimiter where
  Count : Int
  Expires : Int
deriving DecidableEq, Repr

/-- The Go constant `time.Minute`, in nanoseconds. -/
def Minute : Int := 60 * 1000000000

/-- The map `ips` of type `map[string]*IPRateLimiter`, as a partial function on keys.
Every entry is allocated by `allowIP` and reached only through the map, so updating the
pointed-to struct is updating the entry. -/
abbrev Table := GoString → Option IPRateLimiter

/-- The table `make(map[string]*IPRateLimiter)`. -/
def emptyTable : Table := fun _ => none

/-- The assignment `ips[ip] = v`. -/
def setEntry (ips : Table) (ip : GoString) (v : IPRateLimiter) : Table :=
  fun k => if k = ip then some v else ips k

/-- The function `func allowIP(ip string) bool`, run under the mutex at the instant `now`
returned by `time.Now()`: the decision and the table afterwards. `now.After(v.Expires)`
is `now > v.Expires`. -/
def allowIP (now : Int) (ip : GoString) (ips : Table) : Bool × Table :=
  match ips ip with
  | none => (true, setEntry ips ip { Count := 1, Expires := now + Minute })
  | some v =>
    if now > v.Expires then
      (true, setEntry ips ip { Count := 1, Expires := now + Minute })
    else if v.Count ≥ 5 then
      (false, ips)
    else
      (true, setEntry ips ip { v with Count := v.Count + 1 })

/-- One tick of the goroutine of `startIPCleanup`: under the mutex, at the instant `now`,
the loop `for ip, data := range ips` deletes every entry with `now.After(data.Expires)`. -/
def startIPCleanup.tick (now : Int) (ips : Table) : Table :=
  fun ip =>
    match ips ip with
    | none => none
    | some data => if now > data.Expires then none else some data

/-- A call of `allowIP` in a trace: the instant `time.Now()` gave it and its argument. -/
structure Call where
  now : Int
  ip : GoString
deriving DecidableEq, Repr

/-- What one call of a trace saw and did. -/
structure Step where
  before : Table
  allowed : Bool
  after : Table

/-- The steps of a sequence of `allowIP` calls, in order. -/
def traceCalls : List Call → Table → List Step
  | [], _ => []
  | c :: cs, ips =>
    let r := allowIP c.now c.ip ips
    { before := ips, allowed := r.1, after := r.2 } :: traceCalls cs r.2

/-- The decisions of a sequence of `allowIP` calls, in order. -/
def decisions (cs : List Call) (ips : Table) : List Bool :=
  (traceCalls cs ips).map Step.allowed

/-! ## `main.go`: collaborators and handlers -/

/-- The type `ShortenBody`, the decoded JSON body of a shorten request. -/
structure ShortenBody where
  URL : GoString
  TurnstileToken : GoString
deriving DecidableEq, Repr

/-- What a handler writes to the `http.ResponseWriter`. -/
inductive Response where
  /-- The call `http.Error(w, msg, status)`. -/
  | error (msg : GoString) (status : Nat)
  /-- The call `w.WriteHeader(http.StatusCreated)` followed by the JSON object. -/
  | created (shortened_url original_url : GoString)
  /-- The call `http.Redirect(w, r, url, status)`. -/
  | redirect (url : GoString) (status : Nat)
deriving DecidableEq, Repr

/-- HTTP status of a response. -/
def Response.status : Response → Nat
  | .error _ status => status
  | .created _ _ => 201
  | .redirect _ status => status

/-- Calls a handler makes to its collaborators, recorded in order. -/
inductive Effect where
  | verifyTurnstile (token : GoString)
  | allowIP (ip : GoString)
  | isValidURL (raw : GoString)
  | insertURL (url : GoString)
  | selectURL (id : Int)
deriving DecidableEq, Repr

/-- Outcome of the HTTP exchange with the external verification endpoint. -/
inductive Siteverify where
  | transportError
  | undecodableBody
  | verdict (success : Bool)
deriving DecidableEq, Repr

/-- Outcome of `SELECT original_url FROM urls WHERE id = $1` followed by `Scan`. -/
inductive SelectResult where
  | found (originalURL : GoString)
  | errNoRows
  | otherError
deriving DecidableEq, Repr

/-- Outcome of reading and unmarshalling the request body of a shorten request. -/
inductive BodyRead where
  | readError
  | invalidJSON
  | decoded (jsonBody : ShortenBody)
deriving DecidableEq, Repr

/-- The world outside the handlers: the verification service, `url.ParseRequestURI`
(scheme and host of the parsed URI, `none` on a parse error), the datastore, the
`DOMAIN` setting and the clock reading `allowIP` gets. -/
structure Env where
  siteverify : GoString → Siteverify
  parseRequestURI : GoString → Option (GoString × GoString)
  insertURL : GoString → Except GoError Int
  selectURL : Int → SelectResult
  domain : GoString
  now : Int

/-- The function `func isValidURL(raw string) bool`, over the result of
`url.ParseRequestURI`. -/
def isValidURL (parseRequestURI : GoString → Option (GoString × GoString))
    (raw : GoString) : Bool :=
  match parseRequestURI raw with
  | none => false
  | some (scheme, host) =>
    if scheme ≠ ascii "http" ∧ scheme ≠ ascii "https" then false
    else if host = [] then false
    else true

/-- The function `func verifyTurnstile(token string) (bool, error)`: the result as a function of how
the exchange with the verification endpoint went. -/
def verifyTurnstile (siteverify : GoString → Siteverify) (token : GoString) :
    Bool × Option GoError :=
  match siteverify token with
  | .transportError => (false, some "client.Do")
  | .undecodableBody => (false, some "json.Unmarshal")
  | .verdict success => (success, none)

/-- The handler of `POST /api/shorten`, given the outcome of reading the body, the value
of `getClientIP(r)` and the rate-limiter table: the response, the table afterwards and
the collaborator calls made. -/
def shortenHandler (env : Env) (body : BodyRead) (clientIP : GoString) (ips : Table) :
    Response × Table × List Effect :=
  match body with
  | .readError => (.error (ascii "Some error occured!") 400, ips, [])
  | .invalidJSON => (.error (ascii "Invalid JSON format") 400, ips, [])
  | .decoded jsonBody =>
    if jsonBody.TurnstileToken = [] then
      (.error (ascii "Turnstile required") 403, ips, [])
    else
      let v := verifyTurnstile env.siteverify jsonBody.TurnstileToken
      let e1 := [Effect.verifyTurnstile jsonBody.TurnstileToken]
      if v.2 ≠ none ∨ v.1 = false then
        (.error (ascii "Bot verification failed") 403, ips, e1)
      else
        let a := allowIP env.now clientIP ips
        let e2 := e1 ++ [Effect.allowIP clientIP]
        if a.1 = false then
          (.error (ascii "Rate limit exceeded. Try again later.") 429, a.2, e2)
        else
          let e3 := e2 ++ [Effect.isValidURL jsonBody.URL]
          if isValidURL env.parseRequestURI jsonBody.URL = false then
            (.error (ascii "Invalid URL format") 400, a.2, e3)
          else
            let e4 := e3 ++ [Effect.insertURL jsonBody.URL]
            match env.insertURL jsonBody.URL with
            | .error _ => (.error (ascii "Error inserting URL into database") 500, a.2, e4)
            | .ok id => (.created (env.domain ++ Encode id) jsonBody.URL, a.2, e4)

/-- The handler of `GET /{shortenedId}`, given the path segment: the response and the
collaborator calls made. -/
def resolveHandler (env : Env) (shortenedId : GoString) : Response × List Effect :=
  let d := Decode shortenedId
  if d.2 ≠ none then
    (.error (ascii "Invalid shortened ID") 400, [])
  else
    match env.selectURL d.1 with
    | .found originalURL => (.redirect originalURL 302, [Effect.selectURL d.1])
    | .errNoRows => (.error (ascii "Shortened URL not found") 404, [Effect.selectURL d.1])
    | .otherError =>
      (.error (ascii "Error retrieving original URL") 500, [Effect.selectURL d.1])

/-! ## Concrete inputs used by the theorems -/

/-- An environment in which verification succeeds, every URL parses as `https` with a
host, and the datastore accepts every insert. -/
def permissiveEnv : Env where
  siteverify := fun _ => Siteverify.verdict true
  parseRequestURI := fun _ => some (ascii "https", ascii "example.com")
  insertURL := fun _ => Except.ok 1
  selectURL := fun _ => SelectResult.errNoRows
  domain := ascii "https://shrty.example/"
  now := 0

/-- Calls of another client made before the first call of client `203.0.113.7`. -/
def interleavedPre : List Call :=
  [ { now := 0, ip := ascii "198.51.100.9" } ]

/-- Calls made after the first call of client `203.0.113.7` at instant 1: five more of
that client, the last one exactly at `1 + Minute`, interleaved with calls of another
client. -/
def interleavedRest : List Call :=
  [ { now := 2, ip := ascii "198.51.100.9" },
    { now := 3, ip := ascii "203.0.113.7" },
    { now := 4, ip := ascii "203.0.113.7" },
    { now := 5, ip := ascii "198.51.100.9" },
    { now := 6, ip := ascii "203.0.113.7" },
    { now := 7, ip := ascii "203.0.113.7" },
    { now := 1 + Minute, ip := ascii "203.0.113.7" } ]

/-! # Theorems -/

/-! ## Sanity checks of the embedding -/

example : Encode 61 = ascii "z" := by decide
example : Encode 62 = ascii "10" := by decide
example : Encode 3843 = ascii "zz" := by decide
example : Encode (-5) = [] := by decide
example : Decode (ascii "10") = (62, none) := by decide
example : Decode (ascii "zz") = (3843, none) := by decide
example : Decode [] = (0, none) := by decide
example : (allowIP 7 (ascii "a") emptyTable).1 = true := by decide
example :
    decisions [Call.mk 0 (ascii "a"), Call.mk 1 (ascii "b"), Call.mk 2 (ascii "a"),
        Call.mk 3 (ascii "a"), Call.mk 4 (ascii "a"), Call.mk 5 (ascii "a"),
        Call.mk 6 (ascii "a"), Call.mk 7 (ascii "b")] emptyTable
      = [true, true, true, true, true, true, false, true] := by decide

/-! ## Codec lemmas -/

theorem wrap64_id {x : Int} (h0 : -(2 ^ 63) ≤ x) (h1 : x < 2 ^ 63) : wrap64 x = x := by
  unfold wrap64; omega

theorem chars_digit (d : Nat) (h : d < 62) :
    isAlnum (chars.getD d 0) ∧ digitVal (chars.getD d 0) = d ∧
      (chars.getD d 0 = 48 → d = 0) := by
  revert d; decide

theorem digit_chars (c : Nat) (h : isAlnum c) :
    digitVal c < 62 ∧ chars.getD (digitVal c) 0 = c ∧ (digitVal c = 0 → c = 48) := by
  have hc : c < 123 := by unfold isAlnum at h; omega
  revert h; revert c; decide

/-- One iteration of the loop of `Encode` on a positive number. -/
theorem encode_loop_pos (fuel n : Nat) (acc : GoString) (hn : 0 < n) :
    Encode.loop (fuel + 1) (n : Int) acc
      = Encode.loop fuel ((n / 62 : Nat) : Int) (chars.getD (n % 62) 0 :: acc) := by
  have h1 : ((n : Int) > 0) := by exact_mod_cast hn
  have h2 : (n : Int).tmod 62 = ((n % 62 : Nat) : Int) := rfl
  have h3 : (n : Int).tdiv 62 = ((n / 62 : Nat) : Int) := rfl
  simp only [Encode.loop, h1, if_true, h2, h3, Int.toNat_ofNat]

theorem encode_loop_zero (fuel : Nat) (acc : GoString) :
    Encode.loop fuel ((0 : Nat) : Int) acc = acc := by
  cases fuel <;> simp [Encode.loop]

/-- The loop of `Encode` stops by itself before the fuel is spent: with any two amounts
of fuel of at least `num` it returns the same string, so the fuel `num` that `Encode`
supplies never cuts the loop short. -/
theorem encode_loop_fuel (n : Nat) :
    ∀ (f g : Nat) (acc : GoString), n ≤ f → n ≤ g →
      Encode.loop f (n : Int) acc = Encode.loop g (n : Int) acc := by
  induction n using Nat.strong_induction_on with
  | _ n ih =>
    intro f g acc hf hg
    rcases Nat.eq_zero_or_pos n with h0 | hpos
    · subst h0; rw [encode_loop_zero, encode_loop_zero]
    · obtain ⟨f, rfl⟩ : ∃ k, f = k + 1 := ⟨f - 1, by omega⟩
      obtain ⟨g, rfl⟩ : ∃ k, g = k + 1 := ⟨g - 1, by omega⟩
      rw [encode_loop_pos f n acc hpos, encode_loop_pos g n acc hpos]
      exact ih (n / 62) (Nat.div_lt_self hpos (by decide)) f g _ (by omega) (by omega)

/-- The loop of `Encode` never runs out of fuel when given at least `n`: its output on
top of `acc` has the base-62 value `n` continued by `acc`. -/
theorem encode_loop_value (fuel : Nat) :
    ∀ (n : Nat) (acc : GoString), n ≤ fuel →
      (Encode.loop fuel (n : Int) acc).foldl (fun a c => a * 62 + digitVal c) 0
        = acc.foldl (fun a c => a * 62 + digitVal c) n := by
  induction fuel with
  | zero =>
    intro n acc h
    have : n = 0 := by omega
    subst this
    simp [Encode.loop]
  | succ fuel ih =>
    intro n acc h
    rcases Nat.eq_zero_or_pos n with h0 | hpos
    · subst h0; rw [encode_loop_zero]
    · rw [encode_loop_pos fuel n acc hpos, ih (n / 62) _ (by omega)]
      have hd := (chars_digit (n % 62) (Nat.mod_lt _ (by decide))).2.1
      simp only [List.foldl_cons, hd]
      congr 1
      omega

theorem encode_loop_alnum (fuel : Nat) :
    ∀ (n : Nat) (acc : GoString), (∀ c ∈ acc, isAlnum c) →
      ∀ c ∈ Encode.loop fuel (n : Int) acc, isAlnum c := by
  induction fuel with
  | zero => intro n acc h; simpa [Encode.loop] using h
  | succ fuel ih =>
    intro n acc h
    rcases Nat.eq_zero_or_pos n with h0 | hpos
    · subst h0; rw [encode_loop_zero]; exact h
    · rw [encode_loop_pos fuel n acc hpos]
      apply ih
      intro c hc
      rcases List.mem_cons.1 hc with rfl | hc
      · exact (chars_digit (n % 62) (Nat.mod_lt _ (by decide))).1
      · exact h c hc

/-- On a positive number the loop of `Encode` puts a non-empty prefix in front of `acc`,
and that prefix does not start with the byte `'0'`. -/
theorem encode_loop_head (fuel : Nat) :
    ∀ (n : Nat) (acc : GoString), 0 < n → n ≤ fuel →
      ∃ c rest, Encode.loop fuel (n : Int) acc = c :: rest ∧ c ≠ 48 := by
  induction fuel with
  | zero => intro n acc h1 h2; omega
  | succ fuel ih =>
    intro n acc hpos hle
    rw [encode_loop_pos fuel n acc hpos]
    rcases Nat.eq_zero_or_pos (n / 62) with h0 | hq
    · rw [h0, encode_loop_zero]
      refine ⟨_, _, rfl, ?_⟩
      intro hc
      have := (chars_digit (n % 62) (Nat.mod_lt _ (by decide))).2.2 hc
      omega
    · exact ih (n / 62) _ hq (by omega)

theorem value_ge_start (s : GoString) :
    ∀ r : Nat, r * 62 ^ s.length ≤ s.foldl (fun a c => a * 62 + digitVal c) r := by
  induction s with
  | nil => intro r; simp
  | cons c s ih =>
    intro r
    simp only [List.foldl_cons, List.length_cons]
    calc r * 62 ^ (s.length + 1) = (r * 62) * 62 ^ s.length := by ring
      _ ≤ (r * 62 + digitVal c) * 62 ^ s.length := Nat.mul_le_mul_right _ (by omega)
      _ ≤ _ := ih _

theorem value_lt_pow (s : GoString) :
    ∀ r : Nat, (∀ c ∈ s, isAlnum c) →
      s.foldl (fun a c => a * 62 + digitVal c) r < (r + 1) * 62 ^ s.length := by
  induction s with
  | nil => intro r _; simp
  | cons c s ih =>
    intro r h
    simp only [List.foldl_cons, List.length_cons]
    have hc := (digit_chars c (h c (List.mem_cons_self _ _))).1
    calc _ < (r * 62 + digitVal c + 1) * 62 ^ s.length :=
          ih _ (fun x hx => h x (List.mem_cons_of_mem _ hx))
      _ ≤ ((r + 1) * 62) * 62 ^ s.length := Nat.mul_le_mul_right _ (by omega)
      _ = (r + 1) * 62 ^ (s.length + 1) := by ring

theorem start_le_value (s : GoString) (r : Nat) :
    r ≤ s.foldl (fun a c => a * 62 + digitVal c) r :=
  le_trans (Nat.le_mul_of_pos_right r (pow_pos (by decide) _)) (value_ge_start s r)

/-- One iteration of the loop of `Decode` on an alphabet byte, without overflow. -/
theorem decode_loop_step (r c : Nat) (rest : GoString) (hc : isAlnum c)
    (h : r * 62 + digitVal c < 2 ^ 63) :
    Decode.loop (c :: rest) (r : Int) = Decode.loop rest ((r * 62 + digitVal c : Nat) : Int) := by
  have hw : ∀ k : Nat, r * 62 + k < 2 ^ 63 →
      wrap64 (wrap64 ((r : Int) * 62) + (k : Int)) = ((r * 62 + k : Nat) : Int) := by
    intro k hk
    have e1 : wrap64 ((r : Int) * 62) = (r : Int) * 62 := wrap64_id (by omega) (by omega)
    rw [e1]
    have e2 : wrap64 ((r : Int) * 62 + (k : Int)) = (r : Int) * 62 + (k : Int) :=
      wrap64_id (by omega) (by omega)
    rw [e2]; push_cast; rfl
  unfold isAlnum at hc
  unfold digitVal at h ⊢
  rcases hc with hc | hc | hc
  · have i1 : c ≤ 57 := hc.2
    simp only [i1, if_true] at h ⊢
    simp only [Decode.loop, hc, and_self, if_true]
    rw [hw _ h]
  · have i1 : ¬ c ≤ 57 := by omega
    have i2 : c ≤ 90 := hc.2
    have i3 : ¬ (48 ≤ c ∧ c ≤ 57) := by omega
    simp only [i1, i2, if_true, if_false] at h ⊢
    simp only [Decode.loop, hc, i3, and_self, if_true, if_false]
    have := hw _ h
    rw [← this]; push_cast; rfl
  · have i1 : ¬ c ≤ 57 := by omega
    have i2 : ¬ c ≤ 90 := by omega
    have i3 : ¬ (48 ≤ c ∧ c ≤ 57) := by omega
    have i4 : ¬ (65 ≤ c ∧ c ≤ 90) := by omega
    simp only [i1, i2, if_false] at h ⊢
    simp only [Decode.loop, hc, i3, i4, and_self, if_true, if_false]
    have := hw _ h
    rw [← this]; push_cast; rfl

/-- While the running value stays inside `int64`, the loop of `Decode` on alphabet bytes
computes the base-62 value and returns a nil error. -/
theorem decode_loop_eq (s : GoString) :
    ∀ r : Nat, (∀ c ∈ s, isAlnum c) →
      s.foldl (fun a c => a * 62 + digitVal c) r < 2 ^ 63 →
      Decode.loop s (r : Int)
        = (((s.foldl (fun a c => a * 62 + digitVal c) r : Nat) : Int), none) := by
  induction s with
  | nil => intro r _ _; simp [Decode.loop]
  | cons c s ih =>
    intro r h hlt
    simp only [List.foldl_cons] at hlt ⊢
    have hc : isAlnum c := h c (List.mem_cons_self _ _)
    have hs : ∀ x ∈ s, isAlnum x := fun x hx => h x (List.mem_cons_of_mem _ hx)
    have hstep : r * 62 + digitVal c < 2 ^ 63 := lt_of_le_of_lt (start_le_value s _) hlt
    rw [decode_loop_step r c s hc hstep]
    exact ih _ hs hlt

/-- A non-empty alphabet string that does not start with `'0'` has a positive value. -/
theorem value_pos (c : Nat) (rest : GoString) (hc : isAlnum c) (h48 : c ≠ 48) :
    0 < b62Value (c :: rest) := by
  have hd : 0 < digitVal c := by
    rcases Nat.eq_zero_or_pos (digitVal c) with h | h
    · exact absurd ((digit_chars c hc).2.2 h) h48
    · exact h
  have h1 := value_ge_start rest (0 * 62 + digitVal c)
  have h2 : 0 < (0 * 62 + digitVal c) * 62 ^ rest.length :=
    Nat.mul_pos (by omega) (pow_pos (by decide) _)
  unfold b62Value
  simp only [List.foldl_cons]
  omega

theorem value_snoc (l : GoString) (a : Nat) :
    b62Value (l ++ [a]) = b62Value l * 62 + digitVal a := by
  simp [b62Value, List.foldl_append]

/-- The loop of `Encode` rebuilds any alphabet string without a leading `'0'` from its
value, given at least that much fuel. -/
theorem encode_loop_value_inv (s : GoString) :
    (∀ c ∈ s, isAlnum c) → (∀ rest, s ≠ 48 :: rest) →
      ∀ (fuel : Nat) (acc : GoString), b62Value s ≤ fuel →
        Encode.loop fuel ((b62Value s : Nat) : Int) acc = s ++ acc := by
  induction s using List.reverseRecOn with
  | nil =>
    intro _ _ fuel acc _
    have : b62Value [] = 0 := rfl
    rw [this, encode_loop_zero]; rfl
  | append_singleton l a ih =>
    intro hal hlead fuel acc hfuel
    have ha : isAlnum a := hal a (by simp)
    have hl : ∀ c ∈ l, isAlnum c := fun c hc => hal c (by simp [hc])
    have hlead' : ∀ rest, l ≠ 48 :: rest := by
      intro rest h
      exact hlead (rest ++ [a]) (by rw [h]; rfl)
    have hda := digit_chars a ha
    have hv := value_snoc l a
    have hpos : 0 < b62Value (l ++ [a]) := by
      cases l with
      | nil =>
        have h48 : a ≠ 48 := fun h => hlead [] (by rw [h]; rfl)
        exact value_pos a [] ha h48
      | cons c l' =>
        have h48 : c ≠ 48 := fun h => hlead' l' (by rw [h])
        exact value_pos c (l' ++ [a]) (hal c (by simp)) h48
    obtain ⟨fuel', rfl⟩ : ∃ k, fuel = k + 1 := ⟨fuel - 1, by omega⟩
    rw [encode_loop_pos fuel' _ acc hpos]
    have hq : b62Value (l ++ [a]) / 62 = b62Value l := by omega
    have hr : b62Value (l ++ [a]) % 62 = digitVal a := by omega
    rw [hq, hr, hda.2.1, ih hl hlead' fuel' (a :: acc) (by omega)]
    simp

/-- Strings of at most ten alphabet bytes have a value inside `int64`. -/
theorem value_lt_int64 (s : GoString) (hal : ∀ c ∈ s, isAlnum c) (hlen : s.length ≤ 10) :
    b62Value s < 2 ^ 63 := by
  have h1 : b62Value s < (0 + 1) * 62 ^ s.length := value_lt_pow s 0 hal
  have h2 : 62 ^ s.length ≤ 62 ^ 10 := Nat.pow_le_pow_right (by decide) hlen
  have h3 : (62 : Nat) ^ 10 < 2 ^ 63 := by norm_num
  omega

/-- Running `Decode` then `Encode` on a canonical code of at most ten bytes. -/
theorem decode_encode_canonical (s : GoString) (hal : ∀ c ∈ s, isAlnum c)
    (hne : s ≠ []) (hlen : s.length ≤ 10)
    (hcanon : s = ascii "0" ∨ ∀ rest, s ≠ 48 :: rest) :
    Decode s = (((b62Value s : Nat) : Int), none) ∧ Encode ((b62Value s : Nat) : Int) = s := by
  have hlt := value_lt_int64 s hal hlen
  refine ⟨decode_loop_eq s 0 hal hlt, ?_⟩
  rcases hcanon with h0 | hlead
  · subst h0; decide
  · cases s with
    | nil => exact absurd rfl hne
    | cons c rest =>
      have h48 : c ≠ 48 := fun h => hlead rest (by rw [h])
      have hpos := value_pos c rest (hal c (by simp)) h48
      have hne : ((b62Value (c :: rest) : Nat) : Int) ≠ 0 := by exact_mod_cast hpos.ne'
      unfold Encode
      rw [if_neg hne, Int.toNat_ofNat, encode_loop_value_inv _ hal hlead _ [] le_rfl]
      simp

/-- Output of `Encode` on a positive number: a non-empty alphabet string without a leading `'0'`
whose base-62 value is the number. -/
theorem encode_pos_spec (n : Nat) (hn : 0 < n) :
    (∃ c rest, Encode (n : Int) = c :: rest ∧ c ≠ 48) ∧
      (∀ x ∈ Encode (n : Int), isAlnum x) ∧ b62Value (Encode (n : Int)) = n := by
  have hne : (n : Int) ≠ 0 := by exact_mod_cast hn.ne'
  have hE : Encode (n : Int) = Encode.loop n (n : Int) [] := by
    unfold Encode; rw [if_neg hne, Int.toNat_ofNat]
  rw [hE]
  refine ⟨encode_loop_head n n [] hn le_rfl, encode_loop_alnum n n [] (by simp), ?_⟩
  unfold b62Value
  rw [encode_loop_value n n [] le_rfl]
  rfl

/-! ## Claims on the codec -/

/-- C1: for every `n` with `0 ≤ n < 2^63` (every non-negative `int64`, in particular
every `n ≤ 2^62`), `Decode (Encode n)` returns the value `n` with a nil error. -/
theorem Decode_Encode_roundtrip (n : Int) (h0 : 0 ≤ n) (h1 : n < 2 ^ 63) :
    Decode (Encode n) = (n, none) := by
  obtain ⟨m, rfl⟩ := Int.eq_ofNat_of_zero_le h0
  rcases Nat.eq_zero_or_pos m with hm | hm
  · subst hm; decide
  · obtain ⟨_, hal, hv⟩ := encode_pos_spec m hm
    have hlt : b62Value (Encode (m : Int)) < 2 ^ 63 := by rw [hv]; exact_mod_cast h1
    have := decode_loop_eq (Encode (m : Int)) 0 hal hlt
    unfold Decode
    rw [Nat.cast_zero] at this
    rw [this]
    unfold b62Value at hv
    rw [hv]

theorem Decode_Encode_roundtrip_witness :
    (0 : Int) ≤ 2 ^ 62 ∧ (2 ^ 62 : Int) < 2 ^ 63 ∧ Decode (Encode (2 ^ 62)) = (2 ^ 62, none) :=
  ⟨by decide, by decide, Decode_Encode_roundtrip (2 ^ 62) (by decide) (by decide)⟩

/-- C2 (fails on the code): `Decode` on the one-byte string `"!"`, a byte outside the
alphabet, returns the value 0 with a nil error; in fact `Decode` returns a nil error on
every string, so no input is ever reported as invalid. -/
theorem Decode_invalid_byte_nil_error :
    Decode (ascii "!") = (0, none) ∧ (∃ c ∈ ascii "!", ¬ isAlnum c) ∧
      ∀ s : GoString, (Decode s).2 = none := by
  refine ⟨by decide, ⟨33, by decide, by decide⟩, ?_⟩
  intro s
  unfold Decode
  generalize (0 : Int) = r
  induction s generalizing r with
  | nil => rfl
  | cons c s ih =>
    simp only [Decode.loop]
    split_ifs <;> first | exact ih _ | rfl

/-- C7: `Encode 0` is exactly `"0"`; for `0 < n < 2^63`, `Encode n` is non-empty, made of
alphabet bytes only, does not start with `'0'`, has base-62 value `n`, and no alphabet
string of value `n` is shorter. -/
theorem Encode_canonical (n : Int) (h0 : 0 < n) (h1 : n < 2 ^ 63) :
    Encode 0 = ascii "0" ∧ Encode n ≠ [] ∧ (∀ c ∈ Encode n, isAlnum c) ∧
      (Encode n).head? ≠ some 48 ∧ ((b62Value (Encode n) : Nat) : Int) = n ∧
      ∀ s : GoString, (∀ c ∈ s, isAlnum c) → ((b62Value s : Nat) : Int) = n →
        (Encode n).length ≤ s.length := by
  obtain ⟨m, rfl⟩ := Int.eq_ofNat_of_zero_le h0.le
  have hm : 0 < m := by exact_mod_cast h0
  obtain ⟨⟨c, rest, hE, h48⟩, hal, hv⟩ := encode_pos_spec m hm
  refine ⟨by decide, ?_, hal, ?_, by rw [hv], ?_⟩
  · rw [hE]; simp
  · rw [hE]; simpa using h48
  · intro s hs hsv
    have hsv' : b62Value s = m := by exact_mod_cast hsv
    have hc : isAlnum c := hal c (by rw [hE]; simp)
    have hpos : 0 < digitVal c := by
      rcases Nat.eq_zero_or_pos (digitVal c) with h | h
      · exact absurd ((digit_chars c hc).2.2 h) h48
      · exact h
    have hlow : 62 ^ rest.length ≤ m := by
      have h2 := value_ge_start rest (0 * 62 + digitVal c)
      have h3 : b62Value (c :: rest) = m := by rw [← hE]; exact hv
      unfold b62Value at h3
      simp only [List.foldl_cons] at h3
      rw [h3] at h2
      calc 62 ^ rest.length = 1 * 62 ^ rest.length := by ring
        _ ≤ (0 * 62 + digitVal c) * 62 ^ rest.length := Nat.mul_le_mul_right _ (by omega)
        _ ≤ m := h2
    have hup : m < 62 ^ s.length := by
      have := value_lt_pow s 0 hs
      unfold b62Value at hsv'
      rw [hsv'] at this
      simpa using this
    have hlt : rest.length < s.length := by
      by_contra hcon
      have : 62 ^ s.length ≤ 62 ^ rest.length :=
        Nat.pow_le_pow_right (by decide) (Nat.le_of_not_lt hcon)
      omega
    rw [hE]
    simp only [List.length_cons]
    omega

theorem Encode_canonical_witness :
    (0 : Int) < 3843 ∧ (3843 : Int) < 2 ^ 63 ∧
      (Encode 0 = ascii "0" ∧ Encode 3843 ≠ [] ∧ (∀ c ∈ Encode 3843, isAlnum c) ∧
        (Encode 3843).head? ≠ some 48 ∧ ((b62Value (Encode 3843) : Nat) : Int) = 3843 ∧
        ∀ s : GoString, (∀ c ∈ s, isAlnum c) → ((b62Value s : Nat) : Int) = 3843 →
          (Encode 3843).length ≤ s.length) :=
  ⟨by decide, by decide, Encode_canonical 3843 (by decide) (by decide)⟩

/-- C10: for every alphabet string `s` of length 1 to 10 that is `"0"` or does not start
with `'0'`, `Decode s` is a non-negative value with a nil error and
`Encode (Decode s) = s`; hence any such string decoding to the same value as `s` is `s`. -/
theorem Encode_Decode_canonical (s : GoString) (hal : ∀ c ∈ s, isAlnum c)
    (hlen1 : 1 ≤ s.length) (hlen : s.length ≤ 10)
    (hcanon : s = ascii "0" ∨ s.head? ≠ some 48) :
    0 ≤ (Decode s).1 ∧ (Decode s).2 = none ∧ Encode (Decode s).1 = s ∧
      ∀ t : GoString, (∀ c ∈ t, isAlnum c) → 1 ≤ t.length → t.length ≤ 10 →
        (t = ascii "0" ∨ t.head? ≠ some 48) → (Decode t).1 = (Decode s).1 → t = s := by
  have key : ∀ u : GoString, (∀ c ∈ u, isAlnum c) → 1 ≤ u.length → u.length ≤ 10 →
      (u = ascii "0" ∨ u.head? ≠ some 48) →
      Decode u = (((b62Value u : Nat) : Int), none) ∧ Encode (Decode u).1 = u := by
    intro u hu h1 h10 hc
    have hne : u ≠ [] := by intro h; rw [h] at h1; simp at h1
    have hc' : u = ascii "0" ∨ ∀ rest, u ≠ 48 :: rest := by
      rcases hc with h | h
      · exact Or.inl h
      · refine Or.inr (fun rest hr => h ?_)
        rw [hr]; rfl
    obtain ⟨hd, he⟩ := decode_encode_canonical u hu hne h10 hc'
    exact ⟨hd, by rw [hd]; exact he⟩
  obtain ⟨hd, he⟩ := key s hal hlen1 hlen hcanon
  refine ⟨by rw [hd]; exact Int.natCast_nonneg _, by rw [hd], he, ?_⟩
  intro t ht h1 h10 hc heq
  have := (key t ht h1 h10 hc).2
  rw [heq, he] at this
  exact this.symm

theorem Encode_Decode_canonical_witness :
    (∀ c ∈ ascii "zzzzzzzzzz", isAlnum c) ∧ 1 ≤ (ascii "zzzzzzzzzz").length ∧
      (ascii "zzzzzzzzzz").length ≤ 10 ∧
      (ascii "zzzzzzzzzz" = ascii "0" ∨ (ascii "zzzzzzzzzz").head? ≠ some 48) ∧
      (0 ≤ (Decode (ascii "zzzzzzzzzz")).1 ∧ (Decode (ascii "zzzzzzzzzz")).2 = none ∧
        Encode (Decode (ascii "zzzzzzzzzz")).1 = ascii "zzzzzzzzzz" ∧
        ∀ t : GoString, (∀ c ∈ t, isAlnum c) → 1 ≤ t.length → t.length ≤ 10 →
          (t = ascii "0" ∨ t.head? ≠ some 48) →
          (Decode t).1 = (Decode (ascii "zzzzzzzzzz")).1 → t = ascii "zzzzzzzzzz") :=
  ⟨by decide, by decide, by decide, Or.inr (by decide),
    Encode_Decode_canonical (ascii "zzzzzzzzzz") (by decide) (by decide) (by decide)
      (Or.inr (by decide))⟩

/-! ## Claims on the handlers -/

/-- C5 (fails on the code): on the path segment `"!"` the handler of the route
`GET /{shortenedId}` does not answer 400; whatever the datastore holds, it looks up
identifier 0 and answers what that lookup gives (302, 404 or 500), for instance 404 when
the datastore has no row 0. -/
theorem resolve_invalid_code_looks_up_zero (env : Env) :
    (resolveHandler env (ascii "!")).2 = [Effect.selectURL 0] ∧
      (resolveHandler env (ascii "!")).1.status ≠ 400 ∧
      resolveHandler permissiveEnv (ascii "!")
        = (Response.error (ascii "Shortened URL not found") 404, [Effect.selectURL 0]) := by
  have hd : Decode (ascii "!") = (0, none) := by decide
  refine ⟨?_, ?_, by decide⟩
  all_goals
    unfold resolveHandler
    simp only [hd]
    cases h : env.selectURL 0 <;> simp [Response.status]

/-- C6: a shorten request whose body decodes with an empty `turnstileToken` is answered
403 with no collaborator call at all (no verification call, no `allowIP`, no URL
validation, no insert) and an unchanged rate-limiter table, whatever the `url` field,
the client identity and the environment are. -/
theorem shorten_empty_token (env : Env) (jsonBody : ShortenBody) (clientIP : GoString)
    (ips : Table) (htoken : jsonBody.TurnstileToken = []) :
    (shortenHandler env (BodyRead.decoded jsonBody) clientIP ips).1.status = 403 ∧
      (shortenHandler env (BodyRead.decoded jsonBody) clientIP ips).2.1 = ips ∧
      (shortenHandler env (BodyRead.decoded jsonBody) clientIP ips).2.2 = [] := by
  simp [shortenHandler, htoken, Response.status]

theorem shorten_empty_token_witness :
    (ShortenBody.mk (ascii "https://example.com") []).TurnstileToken = [] ∧
      (shortenHandler permissiveEnv
          (BodyRead.decoded (ShortenBody.mk (ascii "https://example.com") []))
          (ascii "203.0.113.7") emptyTable).1.status = 403 ∧
      (shortenHandler permissiveEnv
          (BodyRead.decoded (ShortenBody.mk (ascii "https://example.com") []))
          (ascii "203.0.113.7") emptyTable).2.1 = emptyTable ∧
      (shortenHandler permissiveEnv
          (BodyRead.decoded (ShortenBody.mk (ascii "https://example.com") []))
          (ascii "203.0.113.7") emptyTable).2.2 = [] :=
  ⟨rfl, shorten_empty_token permissiveEnv _ _ _ rfl⟩

/-! ## Claims on the rate limiter -/

/-- C4: when the stored `Expires` of a key is strictly before `now`, whatever the stored
count, `allowIP` allows, leaves that key with `Count = 1` and `Expires = now + Minute`,
and leaves every other key as it was. -/
theorem allowIP_window_reset (now : Int) (ip : GoString) (ips : Table) (v : IPRateLimiter)
    (hv : ips ip = some v) (hexp : v.Expires < now) :
    (allowIP now ip ips).1 = true ∧
      (allowIP now ip ips).2 ip = some { Count := 1, Expires := now + Minute } ∧
      ∀ k, k ≠ ip → (allowIP now ip ips).2 k = ips k := by
  have hgt : now > v.Expires := hexp
  unfold allowIP
  simp only [hv, hgt, if_true, setEntry, true_and]
  exact fun k hk => if_neg hk

theorem allowIP_window_reset_witness :
    setEntry emptyTable (ascii "203.0.113.7") { Count := 5, Expires := 10 }
        (ascii "203.0.113.7") = some { Count := 5, Expires := 10 } ∧
      (10 : Int) < 11 ∧
      ((allowIP 11 (ascii "203.0.113.7")
          (setEntry emptyTable (ascii "203.0.113.7") { Count := 5, Expires := 10 })).1 = true ∧
        (allowIP 11 (ascii "203.0.113.7")
          (setEntry emptyTable (ascii "203.0.113.7") { Count := 5, Expires := 10 })).2
            (ascii "203.0.113.7") = some { Count := 1, Expires := 11 + Minute } ∧
        ∀ k, k ≠ ascii "203.0.113.7" →
          (allowIP 11 (ascii "203.0.113.7")
            (setEntry emptyTable (ascii "203.0.113.7") { Count := 5, Expires := 10 })).2 k
            = setEntry emptyTable (ascii "203.0.113.7") { Count := 5, Expires := 10 } k) :=
  ⟨by decide, by decide,
    allowIP_window_reset 11 (ascii "203.0.113.7")
      (setEntry emptyTable (ascii "203.0.113.7") { Count := 5, Expires := 10 })
      { Count := 5, Expires := 10 } (by decide) (by decide)⟩

/-- C9: the sweep at `t1` deletes exactly the entries whose `Expires` is strictly before
`t1` and keeps every other entry unchanged; and for every key and every `t2 ≥ t1`,
`allowIP` at `t2` gives the same decision and leaves the same state for that key
whether or not the sweep at `t1` ran first. -/
theorem cleanup_invisible_to_allowIP (ips : Table) (t1 t2 : Int) (ip : GoString)
    (hle : t1 ≤ t2) :
    (∀ k, startIPCleanup.tick t1 ips k
        = match ips k with
          | none => none
          | some data => if data.Expires < t1 then none else some data) ∧
      (allowIP t2 ip (startIPCleanup.tick t1 ips)).1 = (allowIP t2 ip ips).1 ∧
      (allowIP t2 ip (startIPCleanup.tick t1 ips)).2 ip = (allowIP t2 ip ips).2 ip := by
  refine ⟨fun k => ?_, ?_⟩
  · unfold startIPCleanup.tick
    cases ips k <;> rfl
  · unfold allowIP startIPCleanup.tick
    cases h : ips ip with
    | none => simp [setEntry]
    | some v =>
      by_cases hx : t1 > v.Expires
      · have h2 : t2 > v.Expires := by omega
        simp [hx, h2, setEntry]
      · simp only [hx, if_false]
        by_cases h2 : t2 > v.Expires
        · simp [h2, setEntry]
        · by_cases h5 : v.Count ≥ 5
          · simp [h2, h5, h]
            omega
          · simp [h2, h5, setEntry]

theorem cleanup_invisible_to_allowIP_witness :
    (10 : Int) ≤ 20 ∧
      ((∀ k, startIPCleanup.tick 10
            (setEntry emptyTable (ascii "203.0.113.7") { Count := 5, Expires := 5 }) k
          = match setEntry emptyTable (ascii "203.0.113.7") { Count := 5, Expires := 5 } k with
            | none => none
            | some data => if data.Expires < 10 then none else some data) ∧
        (allowIP 20 (ascii "203.0.113.7") (startIPCleanup.tick 10
            (setEntry emptyTable (ascii "203.0.113.7") { Count := 5, Expires := 5 }))).1
          = (allowIP 20 (ascii "203.0.113.7")
            (setEntry emptyTable (ascii "203.0.113.7") { Count := 5, Expires := 5 })).1 ∧
        (allowIP 20 (ascii "203.0.113.7") (startIPCleanup.tick 10
            (setEntry emptyTable (ascii "203.0.113.7") { Count := 5, Expires := 5 }))).2
            (ascii "203.0.113.7")
          = (allowIP 20 (ascii "203.0.113.7")
            (setEntry emptyTable (ascii "203.0.113.7") { Count := 5, Expires := 5 })).2
            (ascii "203.0.113.7")) :=
  ⟨by decide, cleanup_invisible_to_allowIP _ 10 20 (ascii "203.0.113.7") (by decide)⟩

/-- Inside a live window `allowIP` denies at count 5 and above, leaving the table as it
is, and otherwise allows and increments the count. -/
theorem allowIP_in_window (now : Int) (ip : GoString) (ips : Table) (v : IPRateLimiter)
    (hv : ips ip = some v) (hnow : now ≤ v.Expires) :
    allowIP now ip ips
      = if v.Count ≥ 5 then (false, ips)
        else (true, setEntry ips ip { v with Count := v.Count + 1 }) := by
  have hng : ¬ now > v.Expires := by omega
  unfold allowIP
  simp only [hv, hng, if_false]

/-- A denied call leaves the table unchanged. -/
theorem allowIP_denied_unchanged (now : Int) (ip : GoString) (ips : Table)
    (h : (allowIP now ip ips).1 = false) : (allowIP now ip ips).2 = ips := by
  unfold allowIP at h ⊢
  cases hv : ips ip with
  | none => simp [hv] at h
  | some v =>
    simp only [hv] at h ⊢
    split_ifs at h ⊢
    all_goals simp_all

/-- A call for one key leaves every other key as it was. -/
theorem allowIP_other (now : Int) (ip k : GoString) (ips : Table) (hk : k ≠ ip) :
    (allowIP now ip ips).2 k = ips k := by
  unfold allowIP
  cases ips ip with
  | none => simp [setEntry, hk]
  | some v =>
    simp only
    split_ifs
    all_goals simp [setEntry, hk]

/-- In any trace, a denied call leaves the table unchanged. -/
theorem trace_denied_unchanged (cs : List Call) :
    ∀ (T : Table) (j : Nat) (st : Step), (traceCalls cs T)[j]? = some st →
      st.allowed = false → st.after = st.before := by
  induction cs with
  | nil => intro T j st h; simp [traceCalls] at h
  | cons c cs ih =>
    intro T j st h
    simp only [traceCalls] at h
    cases j with
    | zero =>
      simp only [List.getElem?_cons_zero, Option.some.injEq] at h
      subst h
      exact allowIP_denied_unchanged c.now c.ip T
    | succ j =>
      simp only [List.getElem?_cons_succ] at h
      exact ih _ j st h

/-- Calls of any clients while the window of `ip` is live: the call at position `j`, when
it is for `ip`, is allowed exactly when the count found at the start plus the number of
earlier calls for `ip` is below 5; the count stored for `ip` stays at most 5. -/
theorem trace_in_window (ip : GoString) (rest : List Call) :
    ∀ (ips : Table) (v : IPRateLimiter), ips ip = some v → v.Count ≤ 5 →
      (∀ c ∈ rest, c.ip = ip → c.now ≤ v.Expires) →
      ∀ (j : Nat) (c : Call) (st : Step), rest[j]? = some c →
        (traceCalls rest ips)[j]? = some st →
        (c.ip = ip → (st.allowed = true ↔
            v.Count + (((rest.take j).filter (fun d => d.ip = ip)).length : Int) < 5)) ∧
          (∀ w, st.after ip = some w → w.Count ≤ 5) := by
  induction rest with
  | nil => intro ips v _ _ _ j c st h; simp at h
  | cons d rest ih =>
    intro ips v hv h5 hwin j c st hc h
    have hwin' : ∀ x ∈ rest, x.ip = ip → x.now ≤ v.Expires :=
      fun x hx => hwin x (List.mem_cons_of_mem _ hx)
    simp only [traceCalls] at h
    by_cases hd : d.ip = ip
    · -- the head call is for `ip`
      have hstep := allowIP_in_window d.now ip ips v hv (hwin d (List.mem_cons_self _ _) hd)
      rw [hd] at h
      cases j with
      | zero =>
        simp only [List.getElem?_cons_zero, Option.some.injEq] at h hc
        subst h
        by_cases h5' : v.Count ≥ 5
        · rw [if_pos h5'] at hstep
          rw [hstep]
          refine ⟨fun _ => ⟨fun h => (by cases h), fun h => ?_⟩, fun w hw => ?_⟩
          · simp only [List.take_zero, List.filter_nil, List.length_nil] at h
            push_cast at h; omega
          · have hw' : ips ip = some w := hw
            rw [hv] at hw'
            simp only [Option.some.injEq] at hw'
            subst hw'; exact h5
        · rw [if_neg h5'] at hstep
          rw [hstep]
          refine ⟨fun _ => ⟨fun _ => ?_, fun _ => rfl⟩, fun w hw => ?_⟩
          · simp only [List.take_zero, List.filter_nil, List.length_nil]
            push_cast; omega
          · simp only [setEntry, if_true, Option.some.injEq] at hw
            subst hw
            show v.Count + 1 ≤ 5
            omega
      | succ j =>
        simp only [List.getElem?_cons_succ] at h hc
        have hf : (((d :: rest).take (j + 1)).filter (fun x => x.ip = ip)).length
            = ((rest.take j).filter (fun x => x.ip = ip)).length + 1 := by
          simp [List.take_succ_cons, List.filter_cons, hd]
        rw [hf]
        by_cases h5' : v.Count ≥ 5
        · rw [if_pos h5'] at hstep
          rw [hstep] at h
          obtain ⟨h1, h2⟩ := ih ips v hv h5 hwin' j c st hc h
          refine ⟨fun hcip => ?_, h2⟩
          rw [h1 hcip]; push_cast; omega
        · rw [if_neg h5'] at hstep
          rw [hstep] at h
          obtain ⟨h1, h2⟩ := ih _ { v with Count := v.Count + 1 } (by simp [setEntry])
            (by show v.Count + 1 ≤ 5; omega) hwin' j c st hc h
          refine ⟨fun hcip => ?_, h2⟩
          rw [h1 hcip]; push_cast
          show v.Count + 1 + _ < 5 ↔ _
          omega
    · -- the head call is for another client
      have hkeep : (allowIP d.now d.ip ips).2 ip = some v := by
        rw [allowIP_other d.now d.ip ip ips (fun h => hd h.symm)]; exact hv
      cases j with
      | zero =>
        simp only [List.getElem?_cons_zero, Option.some.injEq] at h hc
        subst h; subst hc
        refine ⟨fun hcip => absurd hcip hd, fun w hw => ?_⟩
        have hw' : (allowIP d.now d.ip ips).2 ip = some w := hw
        rw [hkeep] at hw'
        simp only [Option.some.injEq] at hw'
        subst hw'; exact h5
      | succ j =>
        simp only [List.getElem?_cons_succ] at h hc
        have hf : (((d :: rest).take (j + 1)).filter (fun x => x.ip = ip)).length
            = ((rest.take j).filter (fun x => x.ip = ip)).length := by
          simp [List.take_succ_cons, List.filter_cons, hd]
        rw [hf]
        exact ih _ v hkeep h5 hwin' j c st hc h

/-- C8: for a key `ip` with no state, take any trace of `allowIP` calls at non-decreasing
times, of `ip` and of any other clients interleaved, in which the first call for `ip` is
at `t1` and no call for `ip` comes after `t1 + Minute`. Then every call for `ip` is
allowed exactly when fewer than 5 calls for `ip` precede it (the i-th call for `ip` is
allowed exactly when `i ≤ 5`), the count stored for `ip` never exceeds 5, and a denied
call leaves the table unchanged. -/
theorem fixed_window_cap (ips : Table) (ip : GoString) (t1 : Int) (pre rest : List Call)
    (hfresh : ips ip = none) (hpre : ∀ c ∈ pre, c.ip ≠ ip)
    (_hsorted : List.Pairwise (fun a b => a.now ≤ b.now) (pre ++ Call.mk t1 ip :: rest))
    (hwin : ∀ c ∈ rest, c.ip = ip → c.now ≤ t1 + Minute) :
    (traceCalls (pre ++ Call.mk t1 ip :: rest) ips).length
        = (pre ++ Call.mk t1 ip :: rest).length ∧
      ∀ (j : Nat) (c : Call) (st : Step), (pre ++ Call.mk t1 ip :: rest)[j]? = some c →
        (traceCalls (pre ++ Call.mk t1 ip :: rest) ips)[j]? = some st →
        (c.ip = ip → (st.allowed = true ↔
          (((pre ++ Call.mk t1 ip :: rest).take j).filter (fun d => d.ip = ip)).length < 5)) ∧
          (∀ w, st.after ip = some w → w.Count ≤ 5) ∧
          (st.allowed = false → st.after = st.before) := by
  have hlen : ∀ (cs : List Call) (T : Table), (traceCalls cs T).length = cs.length := by
    intro cs
    induction cs with
    | nil => intro T; rfl
    | cons c cs ih => intro T; simp [traceCalls, ih]
  refine ⟨hlen _ _, ?_⟩
  have key : ∀ (pre : List Call) (ips : Table), ips ip = none → (∀ c ∈ pre, c.ip ≠ ip) →
      ∀ (j : Nat) (c : Call) (st : Step), (pre ++ Call.mk t1 ip :: rest)[j]? = some c →
        (traceCalls (pre ++ Call.mk t1 ip :: rest) ips)[j]? = some st →
        (c.ip = ip → (st.allowed = true ↔
          (((pre ++ Call.mk t1 ip :: rest).take j).filter (fun d => d.ip = ip)).length < 5)) ∧
          (∀ w, st.after ip = some w → w.Count ≤ 5) := by
    intro pre
    induction pre with
    | nil =>
      intro ips hfresh _ j c st hc h
      have hfirst : allowIP t1 ip ips
          = (true, setEntry ips ip { Count := 1, Expires := t1 + Minute }) := by
        unfold allowIP; simp only [hfresh]
      simp only [List.nil_append, traceCalls, hfirst] at h hc ⊢
      cases j with
      | zero =>
        simp only [List.getElem?_cons_zero, Option.some.injEq] at h hc
        subst h
        refine ⟨fun _ => ⟨fun _ => (by simp), fun _ => rfl⟩, fun w hw => ?_⟩
        simp only [setEntry, if_true, Option.some.injEq] at hw
        subst hw
        exact (by decide : (1 : Int) ≤ 5)
      | succ k =>
        simp only [List.getElem?_cons_succ] at h hc
        obtain ⟨h1, h2⟩ := trace_in_window ip rest _ { Count := 1, Expires := t1 + Minute }
          (by simp [setEntry]) (by show (1 : Int) ≤ 5; decide) hwin k c st hc h
        refine ⟨fun hcip => ?_, h2⟩
        rw [h1 hcip]
        have hf : (((Call.mk t1 ip :: rest).take (k + 1)).filter (fun x => x.ip = ip)).length
            = ((rest.take k).filter (fun x => x.ip = ip)).length + 1 := by
          simp [List.take_succ_cons, List.filter_cons]
        rw [hf]
        show (1 : Int) + _ < 5 ↔ _
        omega
    | cons p pre ih =>
      intro ips hfresh hpre j c st hc h
      have hp : p.ip ≠ ip := hpre p (List.mem_cons_self _ _)
      have hpre' : ∀ x ∈ pre, x.ip ≠ ip := fun x hx => hpre x (List.mem_cons_of_mem _ hx)
      have hnone : (allowIP p.now p.ip ips).2 ip = none := by
        rw [allowIP_other p.now p.ip ip ips (fun h => hp h.symm)]; exact hfresh
      simp only [List.cons_append, traceCalls] at h hc ⊢
      cases j with
      | zero =>
        simp only [List.getElem?_cons_zero, Option.some.injEq] at h hc
        subst h; subst hc
        refine ⟨fun hcip => absurd hcip hp, fun w hw => ?_⟩
        have hw' : (allowIP p.now p.ip ips).2 ip = some w := hw
        rw [hnone] at hw'
        cases hw'
      | succ k =>
        simp only [List.getElem?_cons_succ] at h hc
        have hf : ((p :: (pre ++ Call.mk t1 ip :: rest)).take (k + 1)).filter
              (fun x => x.ip = ip)
            = ((pre ++ Call.mk t1 ip :: rest).take k).filter (fun x => x.ip = ip) := by
          simp [List.take_succ_cons, List.filter_cons, hp]
        rw [hf]
        exact ih _ hnone hpre' k c st hc h
  intro j c st hc h
  obtain ⟨h1, h2⟩ := key pre ips hfresh hpre j c st hc h
  exact ⟨h1, h2, trace_denied_unchanged _ ips j st h⟩

theorem fixed_window_cap_witness :
    emptyTable (ascii "203.0.113.7") = none ∧
      (∀ c ∈ interleavedPre, c.ip ≠ ascii "203.0.113.7") ∧
      List.Pairwise (fun a b => a.now ≤ b.now)
        (interleavedPre ++ Call.mk 1 (ascii "203.0.113.7") :: interleavedRest) ∧
      (∀ c ∈ interleavedRest, c.ip = ascii "203.0.113.7" → c.now ≤ 1 + Minute) ∧
      ((traceCalls (interleavedPre ++ Call.mk 1 (ascii "203.0.113.7") :: interleavedRest)
            emptyTable).length
          = (interleavedPre ++ Call.mk 1 (ascii "203.0.113.7") :: interleavedRest).length ∧
        ∀ (j : Nat) (c : Call) (st : Step),
          (interleavedPre ++ Call.mk 1 (ascii "203.0.113.7") :: interleavedRest)[j]? = some c →
          (traceCalls (interleavedPre ++ Call.mk 1 (ascii "203.0.113.7") :: interleavedRest)
            emptyTable)[j]? = some st →
          (c.ip = ascii "203.0.113.7" → (st.allowed = true ↔
            (((interleavedPre ++ Call.mk 1 (ascii "203.0.113.7") :: interleavedRest).take
              j).filter (fun d => d.ip = ascii "203.0.113.7")).length < 5)) ∧
            (∀ w, st.after (ascii "203.0.113.7") = some w → w.Count ≤ 5) ∧
            (st.allowed = false → st.after = st.before)) ∧
      decisions (interleavedPre ++ Call.mk 1 (ascii "203.0.113.7") :: interleavedRest)
          emptyTable
        = [true, true, true, true, true, true, true, true, false] :=
  ⟨rfl, by decide, by decide, by decide,
    fixed_window_cap emptyTable (ascii "203.0.113.7") 1 interleavedPre interleavedRest rfl
      (by decide) (by decide) (by decide),
    by decide⟩

/-! ### Six calls in a 60-second span -/

end Shrty
